import Mathlib

/-!
# Wallet: address codec, key layout, vault encryption

A shallow embedding of `wallet/wallet.go`.

Byte slices are `List UInt8`; a Go `string` is the list of its bytes.  A call
that can panic returns `Except Panic _`.  Library primitives the source calls
(SHA-256, RIPEMD-160, the base-58 codec, AES-GCM, ECDSA verification) are
arguments of the embedded functions, named after the call they stand for; a
FIPS 180-4 SHA-256 is also given in full so that `CheckSum` can be evaluated.
-/

namespace Cryptocoin

abbrev Byte := UInt8

/-! ## Panics and the `Handle` helper -/

/-- Errors returned by library calls (the `err` values the source passes to `Handle`). -/
inductive GoError
  | keySize (n : Nat)
  | openFailed
  | generateKey
  deriving DecidableEq, Repr

/-- Ways a call of this package aborts: a runtime bounds panic, or `log.Panic(err)`. -/
inductive Panic
  | sliceBounds
  | indexRange
  | logPanic (e : GoError)
  deriving DecidableEq, Repr

deriving instance DecidableEq for Except

/-- Source `Handle(err)`: panics when `err != nil`, otherwise execution continues. -/
def Handle {α : Type} (r : Except GoError α) : Except Panic α :=
  match r with
  | .ok a => .ok a
  | .error e => .error (.logPanic e)

/-- Go slice expression `s[lo:hi]` (bounds are Go `int`s, so `len(s)-4` may be negative). -/
def slice (s : List Byte) (lo hi : Int) : Except Panic (List Byte) :=
  if 0 ≤ lo ∧ lo ≤ hi ∧ hi ≤ (s.length : Int) then
    .ok ((s.drop lo.toNat).take (hi - lo).toNat)
  else
    .error .sliceBounds

/-- Go index expression `s[i]`. -/
def index (s : List Byte) (i : Nat) : Except Panic Byte :=
  match s.get? i with
  | some b => .ok b
  | none => .error .indexRange

/-! ## Constants -/

def checksumLength : Nat := 4

def version : Byte := 0x00

/-! ## Library primitives taken as arguments -/

/-- A digest of a fixed number of bytes (Go `[n]byte`). -/
abbrev Digest (n : Nat) := { d : List Byte // d.length = n }

/-- The type of `sha256.Sum256`. -/
abbrev Sum256Fn := List Byte → Digest 32

/-- The type of a `ripemd160` hasher written once and summed. -/
abbrev Ripemd160Fn := List Byte → Digest 20

/-- The package's base-58 codec, `Base58Encode` and `Base58Decode`. -/
structure Base58 where
  Base58Encode : List Byte → List Byte
  Base58Decode : List Byte → List Byte

/-- The type of `ecdsa.Verify` on the fixed curve `elliptic.P256()`:
public point, the `hash` argument, then `r` and `s`. -/
abbrev VerifyFn := (X Y : Nat) → (hash : List Byte) → (r s : Nat) → Bool

/-- AES-GCM as the source uses it: `Seal` returns ciphertext followed by tag
(what it appends to `dst`), `Open` returns the plaintext or an error. -/
structure AESGCM where
  Seal : (key nonce plaintext : List Byte) → List Byte
  Open : (key nonce ciphertext : List Byte) → Except GoError (List Byte)

/-- Value of `gcm.NonceSize()` for `cipher.NewGCM`. -/
def NonceSize : Nat := 12

/-- Library `aes.NewCipher`: a key of 16, 24 or 32 bytes, else `KeySizeError`. -/
def NewCipher (key : List Byte) : Except GoError Unit :=
  if key.length = 16 ∨ key.length = 24 ∨ key.length = 32 then .ok ()
  else .error (.keySize key.length)

/-! ## Wallet and address codec -/

/-- The fields of `ecdsa.PrivateKey` this package reads: public point and scalar. -/
structure PrivateKey where
  X : Nat
  Y : Nat
  D : Nat
  deriving DecidableEq, Repr

structure Wallet where
  PrivateKey : PrivateKey
  PublicKey : List Byte
  deriving DecidableEq, Repr

/-- Source `CheckSum`: the first `checksumLength` bytes of SHA-256 of SHA-256. -/
def CheckSum (Sum256 : Sum256Fn) (payload : List Byte) : List Byte :=
  let firstHash := Sum256 payload
  let secondHash := Sum256 firstHash.val
  secondHash.val.take checksumLength

/-- Source `(*Wallet).PublicKeyHash`: RIPEMD-160 of SHA-256 of the public key bytes. -/
def PublicKeyHash (Sum256 : Sum256Fn) (Ripemd160 : Ripemd160Fn) (w : Wallet) : List Byte :=
  let pubHash := Sum256 w.PublicKey
  let publicRipMD := Ripemd160 pubHash.val
  publicRipMD.val

/-- The byte string `fullHash` that `Address` hands to `Base58Encode`. -/
def fullHash (Sum256 : Sum256Fn) (Ripemd160 : Ripemd160Fn) (w : Wallet) : List Byte :=
  let pubHash := PublicKeyHash Sum256 Ripemd160 w
  let versionedHash := [version] ++ pubHash
  let checksum := CheckSum Sum256 versionedHash
  versionedHash ++ checksum

/-- Source `(Wallet).Address`. -/
def Address (Sum256 : Sum256Fn) (Ripemd160 : Ripemd160Fn) (B : Base58) (w : Wallet) :
    List Byte :=
  B.Base58Encode (fullHash Sum256 Ripemd160 w)

/-- The body of `AddressToPKH` after decoding. -/
def payloadToPKH (decoded : List Byte) : Except Panic (List Byte) :=
  slice decoded 1 ((decoded.length : Int) - checksumLength)

/-- Source `AddressToPKH`. -/
def AddressToPKH (B : Base58) (address : List Byte) : Except Panic (List Byte) :=
  payloadToPKH (B.Base58Decode address)

/-- The body of `ValidateAddress` after decoding. -/
def validatePayload (Sum256 : Sum256Fn) (decoded : List Byte) : Except Panic Bool := do
  let pubKeyHash := decoded
  let actualChecksum ←
    slice pubKeyHash ((pubKeyHash.length : Int) - checksumLength) pubKeyHash.length
  let version ← index pubKeyHash 0
  let pubKeyHash ← slice pubKeyHash 1 ((pubKeyHash.length : Int) - checksumLength)
  let targetChecksum := CheckSum Sum256 ([version] ++ pubKeyHash)
  pure (decide (actualChecksum = targetChecksum))

/-- Source `ValidateAddress`. -/
def ValidateAddress (Sum256 : Sum256Fn) (B : Base58) (address : List Byte) :
    Except Panic Bool :=
  validatePayload Sum256 (B.Base58Decode address)

/-! ## Key pair and signature verification -/

/-- Little-endian base-256 digits of `n`, at most `fuel` of them. -/
def bytesLE : Nat → Nat → List Byte
  | 0, _ => []
  | fuel + 1, n => if n = 0 then [] else UInt8.ofNat (n % 256) :: bytesLE fuel (n / 256)

/-- Library `(*big.Int).Bytes`: the big-endian bytes of `n` without leading zero
bytes (empty for 0). -/
def Bytes (n : Nat) : List Byte := (bytesLE n n).reverse

/-- Library `(*big.Int).SetBytes`: the big-endian unsigned integer of a byte slice. -/
def SetBytes (buf : List Byte) : Nat := buf.foldl (fun acc b => acc * 256 + b.toNat) 0

/-- Source `NewKeyPair`; the outcome of `ecdsa.GenerateKey` is the argument. -/
def NewKeyPair (generated : Except GoError PrivateKey) :
    Except Panic (PrivateKey × List Byte) := do
  let priv ← Handle generated
  let pub := Bytes priv.X ++ Bytes priv.Y
  pure (priv, pub)

/-- Source `MakeWallet`. -/
def MakeWallet (generated : Except GoError PrivateKey) : Except Panic Wallet := do
  let (priv, pub) ← NewKeyPair generated
  pure ⟨priv, pub⟩

/-- One lower-case hexadecimal digit as an ASCII byte. -/
def hexDigit (n : Nat) : Byte :=
  if n < 10 then UInt8.ofNat (48 + n) else UInt8.ofNat (87 + n)

/-- The verb `%x` of `fmt.Sprintf` on a byte slice: two lower-case digits a byte. -/
def hexBytes : List Byte → List Byte
  | [] => []
  | b :: bs => hexDigit (b.toNat / 16) :: hexDigit (b.toNat % 16) :: hexBytes bs

/-- The bytes of `fmt.Sprintf("%x\n", transaction)`. -/
def dataToVerify (transaction : List Byte) : List Byte := hexBytes transaction ++ [0x0a]

/-- The two integers `VerifySignature` reads from a byte slice split at `len/2`. -/
def splitHalves (buf : List Byte) : Nat × Nat :=
  let n := buf.length
  (SetBytes (buf.take (n / 2)), SetBytes (buf.drop (n / 2)))

/-- Source `VerifySignature`. -/
def VerifySignature (Verify : VerifyFn) (transaction pubkey sig : List Byte) : Bool :=
  let (r, s) := splitHalves sig
  let (x, y) := splitHalves pubkey
  if Verify x y (dataToVerify transaction) r s == false then false else true

/-! ## Vault: key adjustment and authenticated encryption -/

/-- The loop `for i := len(key); i < n; i++ { key = append(key, 0x00) }`, run for
`n - len(key)` iterations. -/
def appendZeros : Nat → List Byte → List Byte
  | 0, key => key
  | k + 1, key => appendZeros k (key ++ [0x00])

/-- Source `keyAdjust`. -/
def keyAdjust (password : List Byte) : List Byte :=
  let key := password
  if key.length < 16 then appendZeros (16 - key.length) key
  else if key.length < 24 then appendZeros (24 - key.length) key
  else if key.length < 32 then appendZeros (32 - key.length) key
  else key

/-- The nonce after `io.ReadFull(rand.Reader, nonce)`: `NonceSize` bytes, zero where
the reader supplied none (a read error is only printed). -/
def readNonce (entropy : List Byte) : List Byte :=
  (entropy ++ List.replicate NonceSize 0).take NonceSize

/-- Source `encrypt`; `entropy` is what `rand.Reader` supplies. -/
def encrypt (G : AESGCM) (entropy key data : List Byte) : Except Panic (List Byte) := do
  let _c ← Handle (NewCipher key)
  let nonce := readNonce entropy
  pure (nonce ++ G.Seal key nonce data)

/-- Source `decrypt`.  The `len(data) < nonceSize` branch only prints, so on a short
blob execution reaches the slice expressions, which panic. -/
def decrypt (G : AESGCM) (key data : List Byte) : Except Panic (List Byte) := do
  let _c ← Handle (NewCipher key)
  let nonceSize := NonceSize
  let nonce ← slice data 0 nonceSize
  let ciphertext ← slice data nonceSize data.length
  let plaintext ← Handle (G.Open key nonce ciphertext)
  pure plaintext

/-- The assumption that `Open` undoes `Seal` under the same key and nonce. -/
def AESGCM.OpenInvertsSeal (G : AESGCM) : Prop :=
  ∀ key nonce plaintext, NewCipher key = .ok () → nonce.length = NonceSize →
    G.Open key nonce (G.Seal key nonce plaintext) = .ok plaintext

/-- The smallest of the key lengths 16, 24 and 32 that is at least `n`, following
the wording of the specification. -/
def smallestSupportedAtLeast (n : Nat) : Option Nat :=
  ([16, 24, 32].filter (fun k => n ≤ k)).min?

/-! ## SHA-256 (FIPS 180-4) on 32-bit words kept as naturals -/

namespace sha256

def mask32 : Nat := 0xffffffff

def rotr (x n : Nat) : Nat := ((x >>> n) ||| (x <<< (32 - n))) &&& mask32

def K256 : List Nat :=
  [0x428a2f98, 0x71374491, 0xb5c0fbcf, 0xe9b5dba5, 0x3956c25b, 0x59f111f1, 0x923f82a4, 0xab1c5ed5,
   0xd807aa98, 0x12835b01, 0x243185be, 0x550c7dc3, 0x72be5d74, 0x80deb1fe, 0x9bdc06a7, 0xc19bf174,
   0xe49b69c1, 0xefbe4786, 0x0fc19dc6, 0x240ca1cc, 0x2de92c6f, 0x4a7484aa, 0x5cb0a9dc, 0x76f988da,
   0x983e5152, 0xa831c66d, 0xb00327c8, 0xbf597fc7, 0xc6e00bf3, 0xd5a79147, 0x06ca6351, 0x14292967,
   0x27b70a85, 0x2e1b2138, 0x4d2c6dfc, 0x53380d13, 0x650a7354, 0x766a0abb, 0x81c2c92e, 0x92722c85,
   0xa2bfe8a1, 0xa81a664b, 0xc24b8b70, 0xc76c51a3, 0xd192e819, 0xd6990624, 0xf40e3585, 0x106aa070,
   0x19a4c116, 0x1e376c08, 0x2748774c, 0x34b0bcb5, 0x391c0cb3, 0x4ed8aa4a, 0x5b9cca4f, 0x682e6ff3,
   0x748f82ee, 0x78a5636f, 0x84c87814, 0x8cc70208, 0x90befffa, 0xa4506ceb, 0xbef9a3f7, 0xc67178f2]

def be32 (b0 b1 b2 b3 : Byte) : Nat :=
  (b0.toNat <<< 24) ||| (b1.toNat <<< 16) ||| (b2.toNat <<< 8) ||| b3.toNat

def words : List Byte → List Nat
  | b0 :: b1 :: b2 :: b3 :: rest => be32 b0 b1 b2 b3 :: words rest
  | _ => []

def wordBytes (w : Nat) : List Byte :=
  [UInt8.ofNat (w >>> 24), UInt8.ofNat (w >>> 16), UInt8.ofNat (w >>> 8), UInt8.ofNat w]

def lenBytes (n : Nat) : List Byte :=
  wordBytes ((n >>> 32) &&& mask32) ++ wordBytes (n &&& mask32)

/-- Padding: a one bit, zeros up to 56 modulo 64, then the bit length on 8 bytes. -/
def pad (msg : List Byte) : List Byte :=
  msg ++ [0x80] ++ List.replicate ((119 - msg.length % 64) % 64) 0 ++ lenBytes (8 * msg.length)

def ssig0 (x : Nat) : Nat := rotr x 7 ^^^ rotr x 18 ^^^ (x >>> 3)

def ssig1 (x : Nat) : Nat := rotr x 17 ^^^ rotr x 19 ^^^ (x >>> 10)

def bsig0 (x : Nat) : Nat := rotr x 2 ^^^ rotr x 13 ^^^ rotr x 22

def bsig1 (x : Nat) : Nat := rotr x 6 ^^^ rotr x 11 ^^^ rotr x 25

def ch (x y z : Nat) : Nat := (x &&& y) ^^^ ((x ^^^ mask32) &&& z)

def maj (x y z : Nat) : Nat := (x &&& y) ^^^ (x &&& z) ^^^ (y &&& z)

/-- Message schedule; `rev` holds the words so far, newest first. -/
def extend : Nat → List Nat → List Nat
  | 0, rev => rev
  | n + 1, rev =>
    let w := (ssig1 (rev.getD 1 0) + rev.getD 6 0 + ssig0 (rev.getD 14 0) + rev.getD 15 0)
      &&& mask32
    extend n (w :: rev)

def schedule (block : List Nat) : List Nat := (extend 48 block.reverse).reverse

structure St where
  a : Nat
  b : Nat
  c : Nat
  d : Nat
  e : Nat
  f : Nat
  g : Nat
  h : Nat
  deriving DecidableEq, Repr

def round (s : St) (k w : Nat) : St :=
  let t1 := s.h + bsig1 s.e + ch s.e s.f s.g + k + w
  let t2 := bsig0 s.a + maj s.a s.b s.c
  ⟨(t1 + t2) &&& mask32, s.a, s.b, s.c, (s.d + t1) &&& mask32, s.e, s.f, s.g⟩

def rounds : St → List Nat → List Nat → St
  | s, k :: ks, w :: ws => rounds (round s k w) ks ws
  | s, _, _ => s

def compress (s : St) (block : List Nat) : St :=
  let r := rounds s K256 (schedule block)
  ⟨(s.a + r.a) &&& mask32, (s.b + r.b) &&& mask32, (s.c + r.c) &&& mask32,
   (s.d + r.d) &&& mask32, (s.e + r.e) &&& mask32, (s.f + r.f) &&& mask32,
   (s.g + r.g) &&& mask32, (s.h + r.h) &&& mask32⟩

def blocks : Nat → St → List Nat → St
  | 0, s, _ => s
  | n + 1, s, ws => blocks n (compress s (ws.take 16)) (ws.drop 16)

def init : St :=
  ⟨0x6a09e667, 0xbb67ae85, 0x3c6ef372, 0xa54ff53a, 0x510e527f, 0x9b05688c, 0x1f83d9ab,
   0x5be0cd19⟩

def stBytes (s : St) : List Byte :=
  wordBytes s.a ++ wordBytes s.b ++ wordBytes s.c ++ wordBytes s.d ++
  wordBytes s.e ++ wordBytes s.f ++ wordBytes s.g ++ wordBytes s.h

/-- Library `sha256.Sum256`. -/
def Sum256 : Sum256Fn := fun msg =>
  let p := pad msg
  ⟨stBytes (blocks (p.length / 64) init (words p)), rfl⟩

end sha256

/-! ## Instances used to exhibit the hypotheses -/

/-- A codec that leaves the bytes as they are. -/
def plainCodec : Base58 := ⟨id, id⟩

/-- A stand-in for RIPEMD-160: the first 20 bytes, zero padded. -/
def first20 : Ripemd160Fn := fun x => ⟨(x ++ List.replicate 20 0).take 20, by simp⟩

/-- A wallet whose public key is three bytes long. -/
def sampleWallet : Wallet := ⟨⟨1, 2, 3⟩, [0x01, 0x02, 0x03]⟩

/-! ## The curve P-256 and a key pair on it -/

namespace P256

/-- The field prime of `elliptic.P256()`. -/
def p : Nat := 0xffffffff00000001000000000000000000000000ffffffffffffffffffffffff

/-- The constant term `b` of the curve equation `y² = x³ - 3x + b`. -/
def b : Nat := 0x5ac635d8aa3a93e7b3ebbd55769886bc651d06b0cc53b0f63bce3c3e27d2604b

/-- Whether `(x, y)` is an affine point of the curve. -/
def onCurve (x y : Nat) : Bool :=
  decide (x < p ∧ y < p ∧ (y * y) % p = (x * x * x + (p - 3) * x + b) % p)

end P256

/-- The key pair with private scalar 43: its `Y` is below `2^248`. -/
def shortYKey : PrivateKey :=
  { X := 0x986ae2506f1ff104d04230861d8f4b498f4bc4c6d009b30f7544dc129b82d28d
    Y := 0x3cccc0a6460e0ae328a4d97d3c7b61d86fc6289c189f2525110c441bb07e97
    D := 43 }

/-- A cipher whose `Open` inverts `Seal`: the sealed text is the key length, the key
and the nonce followed by the plaintext; `Open` checks that header. -/
def headerCipher : AESGCM where
  Seal key nonce plaintext := (UInt8.ofNat key.length :: key ++ nonce) ++ plaintext
  Open key nonce ciphertext :=
    if (UInt8.ofNat key.length :: key ++ nonce).isPrefixOf ciphertext then
      .ok (ciphertext.drop (UInt8.ofNat key.length :: key ++ nonce).length)
    else .error .openFailed

/-- The three-byte password `abc`. -/
def passwordAbc : List Byte := [0x61, 0x62, 0x63]

/-- A password of 16 bytes. -/
def password16 : List Byte := List.replicate 16 0x61

/-- A password of 33 bytes. -/
def password33 : List Byte := List.replicate 33 0x61

/-- A decoded payload that passes `ValidateAddress`: version 0, a 20-byte hash and
the four checksum bytes `01 c6 4a 33`. -/
def validPayload : List Byte :=
  [0x00, 0x3d, 0xb1, 0x72, 0x72, 0xf5, 0x13, 0xbe, 0x0e, 0x4b, 0x3b, 0x01, 0xc3, 0x08,
   0x89, 0x00, 0x28, 0x84, 0xe7, 0x2b, 0x6b, 0x01, 0xc6, 0x4a, 0x33]

/-! ## ECDSA verification on P-256 -/

namespace P256

/-- The order of the base point. -/
def n : Nat := 0xffffffff00000000ffffffffffffffffbce6faada7179e84f3b9cac2fc632551

/-- The base point. -/
def gx : Nat := 0x6b17d1f2e12c4247f8bce6e563a440f277037d812deb33a0f4a13945d898c296

def gy : Nat := 0x4fe342e2fe1a7f9b8ee7eb4a7c0f9e162bce33576b315ececbb6406837bf51f5

/-- Square-and-multiply `base ^ exp % m`, for exponents below `2 ^ fuel`. -/
def powMod : Nat → Nat → Nat → Nat → Nat
  | 0, _, _, m => 1 % m
  | fuel + 1, base, exp, m =>
    if exp = 0 then 1 % m
    else
      let half := powMod fuel (base * base % m) (exp / 2) m
      if exp % 2 = 1 then base * half % m else half

/-- The inverse modulo a prime `m` below `2 ^ 256`, by Fermat. -/
def inv (a m : Nat) : Nat := powMod 256 a (m - 2) m

/-- Subtraction in the field of `p` elements. -/
def sub (a c : Nat) : Nat := (a + p - c % p) % p

/-- A point in Jacobian coordinates: `(X, Y, Z)` stands for the affine point
`(X / Z², Y / Z³)`, and `Z = 0` for the point at infinity. -/
structure Jac where
  X : Nat
  Y : Nat
  Z : Nat
  deriving DecidableEq, Repr

/-- The point at infinity. -/
def infinity : Jac := ⟨1, 1, 0⟩

/-- Doubling on a curve with `a = -3`. -/
def double (P : Jac) : Jac :=
  if P.Z = 0 ∨ P.Y = 0 then infinity
  else
    let delta := P.Z * P.Z % p
    let gamma := P.Y * P.Y % p
    let beta := P.X * gamma % p
    let alpha := 3 * (sub P.X delta * ((P.X + delta) % p) % p) % p
    let x3 := sub (alpha * alpha % p) (8 * beta % p)
    let z3 := 2 * (P.Y * P.Z % p) % p
    let y3 := sub (alpha * sub (4 * beta % p) x3 % p) (8 * (gamma * gamma % p) % p)
    ⟨x3, y3, z3⟩

/-- The group law of the curve. -/
def add (P Q : Jac) : Jac :=
  if P.Z = 0 then Q
  else if Q.Z = 0 then P
  else
    let z1z1 := P.Z * P.Z % p
    let z2z2 := Q.Z * Q.Z % p
    let u1 := P.X * z2z2 % p
    let u2 := Q.X * z1z1 % p
    let s1 := P.Y * (Q.Z * z2z2 % p) % p
    let s2 := Q.Y * (P.Z * z1z1 % p) % p
    if u1 = u2 then
      if s1 = s2 then double P else infinity
    else
      let h := sub u2 u1
      let r := sub s2 s1
      let hh := h * h % p
      let hhh := h * hh % p
      let v := u1 * hh % p
      let x3 := sub (sub (r * r % p) hhh) (2 * v % p)
      let y3 := sub (r * sub v x3 % p) (s1 * hhh % p)
      let z3 := P.Z * Q.Z % p * h % p
      ⟨x3, y3, z3⟩

/-- Double-and-add `k · P`, for scalars below `2 ^ fuel`. -/
def mul : Nat → Nat → Jac → Jac
  | 0, _, _ => infinity
  | fuel + 1, k, P =>
    if k = 0 then infinity
    else
      let half := mul fuel (k / 2) (double P)
      if k % 2 = 1 then add P half else half

/-- The affine coordinates of a point, `none` for the point at infinity. -/
def affine (P : Jac) : Option (Nat × Nat) :=
  if P.Z = 0 then none
  else
    let zi := inv P.Z p
    let zi2 := zi * zi % p
    some (P.X * zi2 % p, P.Y * (zi2 * zi % p) % p)

/-- The integer ECDSA takes from the `hash` argument: its first 32 bytes. -/
def hashToInt (hash : List Byte) : Nat := SetBytes (hash.take 32)

/-- Library `ecdsa.Verify` with the curve `elliptic.P256()`: `r` and `s` must lie in
`[1, n - 1]`, the public point on the curve, and `x(u1·G + u2·Q) mod n = r`. -/
def Verify : VerifyFn := fun X Y hash r s =>
  if r = 0 ∨ s = 0 ∨ n ≤ r ∨ n ≤ s then false
  else if onCurve X Y = false then false
  else
    let e := hashToInt hash
    let w := inv s n
    let u1 := e * w % n
    let u2 := r * w % n
    match affine (add (mul 256 u1 ⟨gx, gy, 1⟩) (mul 256 u2 ⟨X, Y, 1⟩)) with
    | none => false
    | some (x, _) => decide (x % n = r)

end P256

/-- The five-byte message `hello`. -/
def helloMessage : List Byte := [0x68, 0x65, 0x6c, 0x6c, 0x6f]

/-- The public-key bytes of the P-256 key pair with private scalar 7. -/
def publicKey7 : List Byte :=
  [0x8e, 0x53, 0x3b, 0x6f, 0xa0, 0xbf, 0x7b, 0x46, 0x25, 0xbb, 0x30, 0x66, 0x7c, 0x01,
   0xfb, 0x60, 0x7e, 0xf9, 0xf8, 0xb8, 0xa8, 0x0f, 0xef, 0x5b, 0x30, 0x06, 0x28, 0x70,
   0x31, 0x87, 0xb2, 0xa3, 0x73, 0xeb, 0x1d, 0xbd, 0xe0, 0x33, 0x18, 0x36, 0x6d, 0x06,
   0x9f, 0x83, 0xa6, 0xf5, 0x90, 0x00, 0x53, 0xc7, 0x36, 0x33, 0xcb, 0x04, 0x1b, 0x21,
   0xc5, 0x5e, 0x1a, 0x86, 0xc1, 0xf4, 0x00, 0xb4]

/-- A signature by private scalar 7 with the bytes of `dataToVerify helloMessage`
themselves as the digest. -/
def helloSignature : List Byte :=
  [0x47, 0x1c, 0x3e, 0x75, 0x8c, 0x49, 0x04, 0x28, 0x5b, 0xba, 0x7e, 0x53, 0x11, 0x8e,
   0xd0, 0xf5, 0x24, 0xad, 0xeb, 0x07, 0x57, 0xd2, 0x5b, 0xd2, 0xf8, 0xe7, 0xb0, 0xd7,
   0x6d, 0xfa, 0x71, 0x4c, 0x9e, 0x9b, 0x1d, 0x76, 0x9e, 0x05, 0x47, 0x51, 0x45, 0xfe,
   0xcb, 0xd2, 0xad, 0xb2, 0xd8, 0xca, 0x9f, 0xb8, 0xcd, 0x3e, 0x82, 0x90, 0x81, 0x13,
   0xb2, 0x21, 0xc9, 0xe9, 0x60, 0x51, 0x47, 0x5e]

/-- The ASCII bytes of `0123456789abcdef`. -/
def hexDigits : List Byte :=
  [0x30, 0x31, 0x32, 0x33, 0x34, 0x35, 0x36, 0x37, 0x38, 0x39,
   0x61, 0x62, 0x63, 0x64, 0x65, 0x66]

/-- The ASCII bytes of the 56-character message of the second FIPS 180-4 example. -/
def twoBlockMessage : List Byte :=
  [0x61, 0x62, 0x63, 0x64, 0x62, 0x63, 0x64, 0x65, 0x63, 0x64, 0x65, 0x66, 0x64, 0x65,
   0x66, 0x67, 0x65, 0x66, 0x67, 0x68, 0x66, 0x67, 0x68, 0x69, 0x67, 0x68, 0x69, 0x6a,
   0x68, 0x69, 0x6a, 0x6b, 0x69, 0x6a, 0x6b, 0x6c, 0x6a, 0x6b, 0x6c, 0x6d, 0x6b, 0x6c,
   0x6d, 0x6e, 0x6c, 0x6d, 0x6e, 0x6f, 0x6d, 0x6e, 0x6f, 0x70, 0x6e, 0x6f, 0x70, 0x71]

/-- A password of 20 bytes. -/
def password20 : List Byte := List.replicate 20 0x70

/-- Value of `gcm.Overhead()` for `cipher.NewGCM`: the length of the tag. -/
def TagSize : Nat := 16

/-- The library fact that `Seal` returns the plaintext length plus the tag length. -/
def AESGCM.SealAddsTag (G : AESGCM) : Prop :=
  ∀ key nonce plaintext, (G.Seal key nonce plaintext).length = plaintext.length + TagSize

/-- The 16-byte tag of `tagCipher`: the leading bytes of key and nonce, zero padded. -/
def tagOf (key nonce : List Byte) : List Byte :=
  (key ++ nonce ++ List.replicate TagSize 0).take TagSize

/-- A cipher with the lengths of AES-GCM: the sealed text is the plaintext followed
by a 16-byte tag; `Open` checks the tag. -/
def tagCipher : AESGCM where
  Seal key nonce plaintext := plaintext ++ tagOf key nonce
  Open key nonce ciphertext :=
    if TagSize ≤ ciphertext.length ∧
        ciphertext.drop (ciphertext.length - TagSize) = tagOf key nonce then
      .ok (ciphertext.take (ciphertext.length - TagSize))
    else .error .openFailed

/-- The payload `validPayload` with its last byte changed. -/
def otherChecksumPayload : List Byte := validPayload.set 24 0x34

/-- Twelve bytes read from the entropy source. -/
def drawnNonce : List Byte :=
  [0x10, 0x32, 0x54, 0x76, 0x98, 0xba, 0xdc, 0xfe, 0x01, 0x23, 0x45, 0x67]

/-! ## The primitives on published values -/

/-- The digest of `abc` (FIPS 180-4, one block). -/
theorem Sum256_abc :
    (sha256.Sum256 passwordAbc).val =
      [0xba, 0x78, 0x16, 0xbf, 0x8f, 0x01, 0xcf, 0xea, 0x41, 0x41, 0x40, 0xde, 0x5d, 0xae,
       0x22, 0x23, 0xb0, 0x03, 0x61, 0xa3, 0x96, 0x17, 0x7a, 0x9c, 0xb4, 0x10, 0xff, 0x61,
       0xf2, 0x00, 0x15, 0xad] := by
  decide!

/-- The digest of the 56-byte example message (two blocks). -/
theorem Sum256_two_blocks :
    (sha256.Sum256 twoBlockMessage).val =
      [0x24, 0x8d, 0x6a, 0x61, 0xd2, 0x06, 0x38, 0xb8, 0xe5, 0xc0, 0x26, 0x93, 0x0c, 0x3e,
       0x60, 0x39, 0xa3, 0x3c, 0xe4, 0x59, 0x64, 0xff, 0x21, 0x67, 0xf6, 0xec, 0xed, 0xd4,
       0x19, 0xdb, 0x06, 0xc1] := by
  decide!

/-- The base point is on the curve and has order `n`. -/
theorem P256_base_point :
    P256.onCurve P256.gx P256.gy = true ∧
    P256.affine (P256.mul 256 P256.n ⟨P256.gx, P256.gy, 1⟩) = none ∧
    P256.affine (P256.mul 256 1 ⟨P256.gx, P256.gy, 1⟩) = some (P256.gx, P256.gy) := by
  decide!

/-! ## Slicing lemmas -/

theorem CheckSum_length (S : Sum256Fn) (p : List Byte) : (CheckSum S p).length = 4 := by
  simp [CheckSum, checksumLength, (S _).property]

theorem fullHash_length (S : Sum256Fn) (R : Ripemd160Fn) (w : Wallet) :
    (fullHash S R w).length = 25 := by
  simp [fullHash, PublicKeyHash, CheckSum_length, (R _).property]

/-- Slicing off the first byte and the last four bytes of `v :: mid ++ cs`. -/
theorem slice_mid (v : Byte) (mid cs : List Byte) (hcs : cs.length = 4) :
    slice (v :: mid ++ cs) 1 (((v :: mid ++ cs).length : Int) - checksumLength) = .ok mid := by
  have h1 : ((v :: mid ++ cs).length : Int) - checksumLength = (mid.length : Int) + 1 := by
    simp only [checksumLength, List.length_cons, List.length_append, hcs]; push_cast; omega
  rw [h1]
  have h2 : ((mid.length : Int) + 1 - 1).toNat = mid.length := by simp
  simp [slice, hcs, h2]

/-- Slicing the last four bytes of `pre ++ cs`. -/
theorem slice_last (pre cs : List Byte) (hcs : cs.length = 4) :
    slice (pre ++ cs) (((pre ++ cs).length : Int) - checksumLength) (pre ++ cs).length
      = .ok cs := by
  have h1 : ((pre ++ cs).length : Int) - checksumLength = (pre.length : Int) := by
    simp only [checksumLength, List.length_append, hcs]; push_cast; omega
  rw [h1]
  have h2 : (((pre ++ cs).length : Int) - (pre.length : Int)).toNat = 4 := by
    simp [hcs]
  simp only [slice, h2]
  simp [hcs]

/-- A payload of at least five bytes is a version byte, a middle part and four bytes. -/
theorem payload_split (d : List Byte) (h : 5 ≤ d.length) :
    ∃ v mid cs, d = v :: mid ++ cs ∧ cs.length = 4 ∧
      cs = d.drop (d.length - 4) ∧ v :: mid = d.take (d.length - 4) := by
  cases d with
  | nil => simp at h
  | cons v t =>
    refine ⟨v, t.take (t.length - 4), t.drop (t.length - 4), ?_, ?_, ?_, ?_⟩
    · simp
    · simp at h; simp; omega
    · simp at h
      have : t.length + 1 - 4 = (t.length - 4) + 1 := by omega
      simp [this]
    · simp at h
      have : t.length + 1 - 4 = (t.length - 4) + 1 := by omega
      simp [this]

theorem validatePayload_built (S : Sum256Fn) (v : Byte) (mid cs : List Byte)
    (hcs : cs.length = 4) :
    validatePayload S (v :: mid ++ cs) = .ok (decide (cs = CheckSum S (v :: mid))) := by
  have hl := slice_last (v :: mid) cs hcs
  have hm := slice_mid v mid cs hcs
  simp only [List.cons_append] at hl hm
  simp only [validatePayload, List.cons_append, hl, hm, index]
  rfl

theorem validatePayload_long (S : Sum256Fn) (d : List Byte) (h : 5 ≤ d.length) :
    validatePayload S d
      = .ok (decide (d.drop (d.length - 4) = CheckSum S (d.take (d.length - 4)))) := by
  obtain ⟨v, mid, cs, hd, hcs, h1, h2⟩ := payload_split d h
  rw [← h1, ← h2, hd]
  exact validatePayload_built S v mid cs hcs

theorem validatePayload_short (S : Sum256Fn) (d : List Byte) (h : d.length < 5) :
    validatePayload S d = .error .sliceBounds := by
  by_cases h4 : d.length < 4
  · have : ¬ (0 ≤ (d.length : Int) - checksumLength) := by
      simp only [checksumLength]; push_cast; omega
    simp [validatePayload, slice, this]
    rfl
  · have hlen : d.length = 4 := by omega
    match d, hlen with
    | [a, b, c, e], _ => rfl

theorem payloadToPKH_built (v : Byte) (mid cs : List Byte) (hcs : cs.length = 4) :
    payloadToPKH (v :: mid ++ cs) = .ok mid := slice_mid v mid cs hcs

/-! ## C1, C2: address derivation against validation and hash extraction -/

/-- C1: for every wallet (any public-key bytes), if the base-58 decoder undoes the
encoder on 25-byte payloads, `ValidateAddress` returns true on the address that
`Address` derives. -/
theorem C1_validate_derived_address (S : Sum256Fn) (R : Ripemd160Fn) (B : Base58)
    (w : Wallet)
    (hcodec : ∀ b : List Byte, b.length = 25 → B.Base58Decode (B.Base58Encode b) = b) :
    ValidateAddress S B (Address S R B w) = .ok true := by
  unfold ValidateAddress Address
  rw [hcodec _ (fullHash_length S R w)]
  have h := validatePayload_built S version (PublicKeyHash S R w)
    (CheckSum S (version :: PublicKeyHash S R w)) (CheckSum_length S _)
  simpa [fullHash] using h

theorem C1_witness :
    ValidateAddress sha256.Sum256 plainCodec
      (Address sha256.Sum256 first20 plainCodec sampleWallet) = .ok true :=
  C1_validate_derived_address sha256.Sum256 first20 plainCodec sampleWallet
    (fun _ _ => rfl)

/-- C2: for every wallet, if the base-58 decoder undoes the encoder on 25-byte
payloads, `AddressToPKH` of the derived address is `PublicKeyHash`, which is
RIPEMD-160 of SHA-256 of the public-key bytes. -/
theorem C2_pkh_of_derived_address (S : Sum256Fn) (R : Ripemd160Fn) (B : Base58)
    (w : Wallet)
    (hcodec : ∀ b : List Byte, b.length = 25 → B.Base58Decode (B.Base58Encode b) = b) :
    AddressToPKH B (Address S R B w) = .ok (PublicKeyHash S R w) ∧
      PublicKeyHash S R w = (R (S w.PublicKey).val).val := by
  refine ⟨?_, rfl⟩
  unfold AddressToPKH Address
  rw [hcodec _ (fullHash_length S R w)]
  have h := payloadToPKH_built version (PublicKeyHash S R w)
    (CheckSum S (version :: PublicKeyHash S R w)) (CheckSum_length S _)
  simpa [fullHash] using h

theorem C2_witness :
    AddressToPKH plainCodec (Address sha256.Sum256 first20 plainCodec sampleWallet)
        = .ok (PublicKeyHash sha256.Sum256 first20 sampleWallet) ∧
      PublicKeyHash sha256.Sum256 first20 sampleWallet
        = (first20 (sha256.Sum256 sampleWallet.PublicKey).val).val :=
  C2_pkh_of_derived_address sha256.Sum256 first20 plainCodec sampleWallet
    (fun _ _ => rfl)

/-! ## Big-endian bytes -/

theorem toNat_ofNat_byte (n : Nat) : (UInt8.ofNat n).toNat = n % 256 := by
  simp [UInt8.ofNat, UInt8.toNat]

theorem SetBytes_reverse (l : List Byte) :
    SetBytes l.reverse = l.foldr (fun b acc => acc * 256 + b.toNat) 0 := by
  simp [SetBytes, List.foldl_reverse]

theorem foldr_bytesLE (fuel n : Nat) (h : n ≤ fuel) :
    (bytesLE fuel n).foldr (fun b acc => acc * 256 + b.toNat) 0 = n := by
  induction fuel generalizing n with
  | zero =>
    have : n = 0 := by omega
    subst this; rfl
  | succ k ih =>
    by_cases hn : n = 0
    · subst hn; rfl
    · have hk : n / 256 ≤ k := by
        have : n / 256 < n := Nat.div_lt_self (Nat.pos_of_ne_zero hn) (by decide)
        omega
      simp only [bytesLE, hn, if_false, List.foldr_cons, ih _ hk, toNat_ofNat_byte]
      omega

/-- Reading back the bytes of `big.Int` gives the integer. -/
theorem SetBytes_Bytes (n : Nat) : SetBytes (Bytes n) = n := by
  rw [Bytes, SetBytes_reverse]
  exact foldr_bytesLE n n (le_refl n)

theorem bytesLE_getLast_ne_zero (fuel n : Nat) (h : n ≤ fuel) :
    (bytesLE fuel n).getLast? ≠ some 0 := by
  induction fuel generalizing n with
  | zero => simp [bytesLE]
  | succ k ih =>
    by_cases hn : n = 0
    · subst hn; simp [bytesLE]
    · have hk : n / 256 ≤ k := by
        have : n / 256 < n := Nat.div_lt_self (Nat.pos_of_ne_zero hn) (by decide)
        omega
      simp only [bytesLE, hn, if_false]
      by_cases hq : n / 256 = 0
      · have hlt : n < 256 := by
          by_contra hc
          have : 1 ≤ n / 256 := (Nat.le_div_iff_mul_le (by decide)).mpr (by omega)
          omega
        cases k with
        | zero =>
          simp only [bytesLE, List.getLast?_singleton]
          intro hc
          have := congrArg UInt8.toNat (Option.some.inj hc)
          rw [toNat_ofNat_byte] at this
          have h0 : (0 : UInt8).toNat = 0 := rfl
          omega
        | succ k =>
          simp only [bytesLE, hq, if_true, List.getLast?_singleton]
          intro hc
          have := congrArg UInt8.toNat (Option.some.inj hc)
          rw [toNat_ofNat_byte] at this
          have h0 : (0 : UInt8).toNat = 0 := rfl
          omega
      · have hne : bytesLE k (n / 256) ≠ [] := by
          cases k with
          | zero => omega
          | succ k => simp [bytesLE, hq]
        have hih := ih _ hk
        rw [List.getLast?_cons]
        cases hl : (bytesLE k (n / 256)).getLast? with
        | none => exact absurd (List.getLast?_eq_none_iff.mp hl) hne
        | some c =>
          rw [hl] at hih
          simpa using hih

/-- The bytes of `big.Int` carry no leading zero byte. -/
theorem Bytes_head_ne_zero (n : Nat) : (Bytes n).head? ≠ some 0 := by
  rw [Bytes, List.head?_reverse]
  exact bytesLE_getLast_ne_zero n n (le_refl n)

/-- When both coordinates have byte strings of one length, the public-key bytes have
even length and the midpoint split reads the two coordinates back. -/
theorem splitHalves_of_equal_length (X Y : Nat) (h : (Bytes X).length = (Bytes Y).length) :
    (Bytes X ++ Bytes Y).length % 2 = 0 ∧ splitHalves (Bytes X ++ Bytes Y) = (X, Y) := by
  have hhalf : (Bytes X ++ Bytes Y).length / 2 = (Bytes X).length := by
    rw [List.length_append, ← h]; omega
  constructor
  · rw [List.length_append, ← h]; omega
  · simp only [splitHalves, hhalf]
    rw [List.take_left, List.drop_left, SetBytes_Bytes, SetBytes_Bytes]

/-! ## C3: the public-key bytes and their midpoint split -/

/-- C3 (the code at a key pair where the claim fails): for the P-256 key pair with
private scalar 43 the public point is 43 times the base point, on the curve, with both
coordinates below `2^256`;
`NewKeyPair` builds 63 public-key bytes, an odd number, and the midpoint split of
`VerifySignature` reads neither `X` nor `Y` back. -/
theorem C3_short_coordinate_breaks_split :
    P256.affine (P256.mul 256 shortYKey.D ⟨P256.gx, P256.gy, 1⟩)
      = some (shortYKey.X, shortYKey.Y) ∧
    P256.onCurve shortYKey.X shortYKey.Y = true ∧
    shortYKey.X < 2 ^ 256 ∧ shortYKey.Y < 2 ^ 256 ∧
    NewKeyPair (.ok shortYKey) = .ok (shortYKey, Bytes shortYKey.X ++ Bytes shortYKey.Y) ∧
    (Bytes shortYKey.X).length = 32 ∧ (Bytes shortYKey.Y).length = 31 ∧
    (Bytes shortYKey.X ++ Bytes shortYKey.Y).length % 2 = 1 ∧
    (splitHalves (Bytes shortYKey.X ++ Bytes shortYKey.Y)).1 = shortYKey.X / 256 ∧
    (splitHalves (Bytes shortYKey.X ++ Bytes shortYKey.Y)).2
      = (shortYKey.X % 256) * 2 ^ 248 + shortYKey.Y ∧
    (splitHalves (Bytes shortYKey.X ++ Bytes shortYKey.Y)).1 ≠ shortYKey.X ∧
    (splitHalves (Bytes shortYKey.X ++ Bytes shortYKey.Y)).2 ≠ shortYKey.Y := by
  decide!

/-! ## Key adjustment -/

theorem appendZeros_eq (k : Nat) (key : List Byte) :
    appendZeros k key = key ++ List.replicate k 0x00 := by
  induction k generalizing key with
  | zero => simp [appendZeros]
  | succ n ih =>
    rw [appendZeros, ih, List.append_assoc]
    congr 1

/-- What `keyAdjust` returns: the password followed by zero bytes up to the next
length among 16, 24, 32 that exceeds the password length, or the password itself from
32 bytes on. -/
theorem keyAdjust_eq (password : List Byte) :
    keyAdjust password = password ++ List.replicate
      (if password.length < 16 then 16 - password.length
       else if password.length < 24 then 24 - password.length
       else if password.length < 32 then 32 - password.length else 0) 0x00 := by
  unfold keyAdjust
  by_cases h1 : password.length < 16
  · simp [h1, appendZeros_eq]
  · by_cases h2 : password.length < 24
    · simp [h1, h2, appendZeros_eq]
    · by_cases h3 : password.length < 32
      · simp [h1, h2, h3, appendZeros_eq]
      · simp [h1, h2, h3]

theorem keyAdjust_length (password : List Byte) :
    (keyAdjust password).length =
      if password.length < 16 then 16
      else if password.length < 24 then 24
      else if password.length < 32 then 32 else password.length := by
  rw [keyAdjust_eq]
  by_cases h1 : password.length < 16
  · simp [h1]; omega
  · by_cases h2 : password.length < 24
    · simp [h1, h2]; omega
    · by_cases h3 : password.length < 32
      · simp [h1, h2, h3]; omega
      · simp [h1, h2, h3]

theorem NewCipher_keyAdjust (password : List Byte) (h : password.length ≤ 32) :
    NewCipher (keyAdjust password) = .ok () := by
  have hl := keyAdjust_length password
  unfold NewCipher
  by_cases h1 : password.length < 16
  · simp [h1] at hl; simp [hl]
  · by_cases h2 : password.length < 24
    · simp [h1, h2] at hl; simp [hl]
    · by_cases h3 : password.length < 32
      · simp [h1, h2, h3] at hl; simp [hl]
      · have : password.length = 32 := by omega
        simp [h1, h2, h3] at hl; simp [hl, this]

theorem NewCipher_long (password : List Byte) (h : 32 < password.length) :
    NewCipher (keyAdjust password) = .error (.keySize password.length) := by
  have hl := keyAdjust_length password
  have h1 : ¬ password.length < 16 := by omega
  have h2 : ¬ password.length < 24 := by omega
  have h3 : ¬ password.length < 32 := by omega
  simp [h1, h2, h3] at hl
  unfold NewCipher
  rw [hl]
  have : ¬ (password.length = 16 ∨ password.length = 24 ∨ password.length = 32) := by omega
  simp [this]

/-! ## Vault blobs -/

theorem readNonce_length (entropy : List Byte) : (readNonce entropy).length = NonceSize := by
  simp [readNonce, NonceSize]

theorem slice_prefix (a b : List Byte) :
    slice (a ++ b) 0 (a.length : Nat) = .ok a := by
  simp [slice]

theorem slice_suffix (a b : List Byte) :
    slice (a ++ b) (a.length : Nat) ((a ++ b).length : Nat) = .ok b := by
  simp [slice]

/-- What `encrypt` returns on a key `aes.NewCipher` accepts. -/
theorem encrypt_ok (G : AESGCM) (entropy key data : List Byte) (hk : NewCipher key = .ok ()) :
    encrypt G entropy key data
      = .ok (readNonce entropy ++ G.Seal key (readNonce entropy) data) := by
  simp [encrypt, hk, Handle]

/-- What `encrypt` does on a key `aes.NewCipher` refuses. -/
theorem encrypt_bad_key (G : AESGCM) (entropy key data : List Byte) (e : GoError)
    (hk : NewCipher key = .error e) :
    encrypt G entropy key data = .error (.logPanic e) := by
  simp [encrypt, hk, Handle]

/-- What `decrypt` does on a blob that starts with a nonce. -/
theorem decrypt_blob (G : AESGCM) (key nonce sealed : List Byte)
    (hk : NewCipher key = .ok ()) (hn : nonce.length = NonceSize) :
    decrypt G key (nonce ++ sealed) = Handle (G.Open key nonce sealed) := by
  have h1 := slice_prefix nonce sealed
  have h2 := slice_suffix nonce sealed
  rw [hn] at h1 h2
  cases h : G.Open key nonce sealed <;>
    simp only [decrypt, hk, Handle, h1, h2, bind, Except.bind, h, pure, Except.pure]

theorem decrypt_bad_key (G : AESGCM) (key data : List Byte) (e : GoError)
    (hk : NewCipher key = .error e) :
    decrypt G key data = .error (.logPanic e) := by
  simp [decrypt, hk, Handle]
  rfl

/-! ## The ciphers used as instances meet the library facts -/

theorem headerCipher_inverts : headerCipher.OpenInvertsSeal := by
  intro key nonce plaintext _ _
  simp [headerCipher]

theorem tagOf_length (key nonce : List Byte) : (tagOf key nonce).length = TagSize := by
  simp only [tagOf, TagSize, List.length_take, List.length_append, List.length_replicate]
  omega

theorem tagCipher_adds_tag : tagCipher.SealAddsTag := by
  intro key nonce plaintext
  simp [tagCipher, tagOf_length]

theorem tagCipher_inverts : tagCipher.OpenInvertsSeal := by
  intro key nonce plaintext _ _
  simp [tagCipher, tagOf_length]

/-! ## C4, C5: the vault round trip and the wrong password -/

/-- C4 (as the code has it): for every password of at most 32 bytes, every plaintext
and every outcome of the entropy source, `decrypt` of what `encrypt` returned, both
under `keyAdjust` of the password, succeeds with the plaintext, taking `Open` as the
inverse of `Seal` under the same key and nonce. -/
theorem C4_round_trip_up_to_32 (G : AESGCM) (hG : G.OpenInvertsSeal)
    (entropy password plaintext : List Byte) (hlen : password.length ≤ 32) :
    (encrypt G entropy (keyAdjust password) plaintext >>= decrypt G (keyAdjust password))
      = .ok plaintext := by
  have hk := NewCipher_keyAdjust password hlen
  rw [encrypt_ok G entropy _ plaintext hk]
  show decrypt G (keyAdjust password) _ = _
  rw [decrypt_blob G _ _ _ hk (readNonce_length entropy),
    hG _ _ plaintext hk (readNonce_length entropy)]
  rfl

theorem C4_witness :
    (encrypt headerCipher [1, 2, 3] (keyAdjust passwordAbc) [9, 9]
      >>= decrypt headerCipher (keyAdjust passwordAbc)) = .ok [9, 9] :=
  C4_round_trip_up_to_32 headerCipher headerCipher_inverts [1, 2, 3] passwordAbc [9, 9]
    (by decide)

/-- C4 fails for a 33-byte password: `keyAdjust` returns its 33 bytes, and `encrypt`
panics on the key size for every cipher, entropy and plaintext, so the round trip
returns no plaintext. -/
theorem C4_counterexample :
    (keyAdjust password33).length = 33 ∧
    ∀ (G : AESGCM) (entropy plaintext : List Byte),
      (encrypt G entropy (keyAdjust password33) plaintext
        >>= decrypt G (keyAdjust password33)) = .error (.logPanic (.keySize 33)) := by
  refine ⟨by decide, ?_⟩
  intro G entropy plaintext
  have hk : NewCipher (keyAdjust password33) = .error (.keySize 33) :=
    NewCipher_long password33 (by decide)
  rw [encrypt_bad_key G entropy _ plaintext _ hk]
  rfl

/-- C5 (as the code has it): for every two passwords and every plaintext, `decrypt`
under the key of the second password of a blob `encrypt` produced under the key of the
first returns a plaintext exactly when `aes.NewCipher` accepts the second key and
`Open` accepts, under that key and the nonce of the blob, the text sealed under the
first key, and then it returns what `Open` returns; in every other case it fails.
`Open` being the inverse of `Seal`, it returns the plaintext whenever the two adjusted
keys are equal. -/
theorem C5_second_password_needs_open_to_accept (G : AESGCM) (hG : G.OpenInvertsSeal)
    (entropy p1 p2 plaintext blob : List Byte)
    (henc : encrypt G entropy (keyAdjust p1) plaintext = .ok blob) :
    (∀ out, decrypt G (keyAdjust p2) blob = .ok out ↔
      (NewCipher (keyAdjust p2) = .ok () ∧
        G.Open (keyAdjust p2) (readNonce entropy)
          (G.Seal (keyAdjust p1) (readNonce entropy) plaintext) = .ok out)) ∧
    ((∃ e, decrypt G (keyAdjust p2) blob = .error e) ↔
      ¬ (NewCipher (keyAdjust p2) = .ok () ∧
        ∃ out, G.Open (keyAdjust p2) (readNonce entropy)
          (G.Seal (keyAdjust p1) (readNonce entropy) plaintext) = .ok out)) ∧
    (keyAdjust p1 = keyAdjust p2 → decrypt G (keyAdjust p2) blob = .ok plaintext) := by
  have hn := readNonce_length entropy
  cases hk1 : NewCipher (keyAdjust p1) with
  | error e =>
    rw [encrypt_bad_key G entropy _ plaintext e hk1] at henc
    cases henc
  | ok u =>
    cases u
    rw [encrypt_ok G entropy _ plaintext hk1] at henc
    injection henc with hblob
    subst hblob
    refine ⟨?_, ?_, ?_⟩
    · intro out
      cases hk2 : NewCipher (keyAdjust p2) with
      | error e =>
        rw [decrypt_bad_key G _ _ e hk2]
        constructor
        · intro h; cases h
        · rintro ⟨h, _⟩; cases h
      | ok u =>
        cases u
        rw [decrypt_blob G _ _ _ hk2 hn]
        cases hopen : G.Open (keyAdjust p2) (readNonce entropy)
            (G.Seal (keyAdjust p1) (readNonce entropy) plaintext) with
        | error e =>
          constructor
          · intro h; cases h
          · rintro ⟨_, h⟩; cases h
        | ok pt =>
          constructor
          · intro h
            exact ⟨rfl, by injection h with h; rw [h]⟩
          · rintro ⟨_, h⟩
            injection h with h
            rw [h]; rfl
    · cases hk2 : NewCipher (keyAdjust p2) with
      | error e =>
        constructor
        · rintro _ ⟨h, _⟩; cases h
        · intro _; exact ⟨_, decrypt_bad_key G _ _ e hk2⟩
      | ok u =>
        cases u
        rw [decrypt_blob G _ _ _ hk2 hn]
        cases hopen : G.Open (keyAdjust p2) (readNonce entropy)
            (G.Seal (keyAdjust p1) (readNonce entropy) plaintext) with
        | error e =>
          constructor
          · rintro _ ⟨_, out, h⟩; cases h
          · intro _; exact ⟨.logPanic e, rfl⟩
        | ok pt =>
          constructor
          · rintro ⟨e, h⟩; cases h
          · intro h; exact absurd ⟨rfl, pt, rfl⟩ h
    · intro hsame
      rw [← hsame, decrypt_blob G _ _ _ hk1 hn, hG _ _ plaintext hk1 hn]
      rfl

theorem C5_witness :
    (∀ out, decrypt tagCipher (keyAdjust [0x62])
        (readNonce drawnNonce
          ++ tagCipher.Seal (keyAdjust [0x61]) (readNonce drawnNonce) [7]) = .ok out ↔
      (NewCipher (keyAdjust [0x62]) = .ok () ∧
        tagCipher.Open (keyAdjust [0x62]) (readNonce drawnNonce)
          (tagCipher.Seal (keyAdjust [0x61]) (readNonce drawnNonce) [7]) = .ok out)) ∧
    ((∃ e, decrypt tagCipher (keyAdjust [0x62])
        (readNonce drawnNonce
          ++ tagCipher.Seal (keyAdjust [0x61]) (readNonce drawnNonce) [7]) = .error e) ↔
      ¬ (NewCipher (keyAdjust [0x62]) = .ok () ∧
        ∃ out, tagCipher.Open (keyAdjust [0x62]) (readNonce drawnNonce)
          (tagCipher.Seal (keyAdjust [0x61]) (readNonce drawnNonce) [7]) = .ok out)) ∧
    (keyAdjust [0x61] = keyAdjust [0x62] →
      decrypt tagCipher (keyAdjust [0x62])
        (readNonce drawnNonce
          ++ tagCipher.Seal (keyAdjust [0x61]) (readNonce drawnNonce) [7]) = .ok [7]) :=
  C5_second_password_needs_open_to_accept tagCipher tagCipher_inverts
    drawnNonce [0x61] [0x62] [7] _ (encrypt_ok tagCipher _ _ [7] (by decide))

/-- C5 fails for the passwords `a` and `a` followed by a zero byte: they differ,
`keyAdjust` gives both the same key, and for every cipher whose `Open` inverts `Seal`
the second password decrypts what the first encrypted. -/
theorem C5_counterexample :
    ([0x61] : List Byte) ≠ [0x61, 0x00] ∧ keyAdjust [0x61] = keyAdjust [0x61, 0x00] ∧
    ∀ (G : AESGCM), G.OpenInvertsSeal → ∀ (entropy plaintext : List Byte),
      (encrypt G entropy (keyAdjust [0x61]) plaintext
        >>= decrypt G (keyAdjust [0x61, 0x00])) = .ok plaintext := by
  refine ⟨by decide, by decide, ?_⟩
  intro G hG entropy plaintext
  have hsame : keyAdjust [0x61, 0x00] = keyAdjust [0x61] := by decide
  have hk : NewCipher (keyAdjust [0x61]) = .ok () := by decide
  rw [hsame, encrypt_ok G entropy _ plaintext hk]
  show decrypt G (keyAdjust [0x61]) _ = _
  rw [decrypt_blob G _ _ _ hk (readNonce_length entropy),
    hG _ _ plaintext hk (readNonce_length entropy)]
  rfl

/-- A 32-byte key for every choice of 32 values below 256. -/
theorem keyOf_length (f : Fin 32 → Fin 256) :
    (List.ofFn (fun i => UInt8.ofNat (f i).val)).length = 32 := by
  simp

theorem keyOf_injective (f g : Fin 32 → Fin 256)
    (h : List.ofFn (fun i => UInt8.ofNat (f i).val) = List.ofFn (fun i => UInt8.ofNat (g i).val)) :
    f = g := by
  have h1 := List.ofFn_injective h
  funext i
  have h2 := congrFun h1 i
  have h3 := congrArg UInt8.toNat h2
  rw [toNat_ofNat_byte, toNat_ofNat_byte, Nat.mod_eq_of_lt (f i).isLt,
    Nat.mod_eq_of_lt (g i).isLt] at h3
  exact Fin.ext h3

/-- Two byte strings of 16 bytes with the same bytes at every position are equal. -/
theorem eq_of_getD_eq (a b : List Byte) (ha : a.length = 16) (hb : b.length = 16)
    (h : ∀ i : Fin 16, (a.getD i.val 0).toNat = (b.getD i.val 0).toNat) : a = b := by
  apply List.ext_getElem (by rw [ha, hb])
  intro i h1 h2
  have := h ⟨i, by omega⟩
  simp only [List.getD_eq_getElem?_getD, List.getElem?_eq_getElem h1,
    List.getElem?_eq_getElem h2, Option.getD_some] at this
  exact UInt8.ext this

/-- With more keys than tags, two different 32-byte keys seal the empty plaintext to
the same text, and `Open` under one accepts what was sealed under the other. -/
theorem other_key_accepted_somewhere (G : AESGCM) (hinv : G.OpenInvertsSeal)
    (htag : G.SealAddsTag) (nonce : List Byte) (hn : nonce.length = NonceSize) :
    ∃ key other : List Byte, key.length = 32 ∧ other.length = 32 ∧ key ≠ other ∧
      G.Open other nonce (G.Seal key nonce []) = .ok [] := by
  let keyOf : (Fin 32 → Fin 256) → List Byte := fun f => List.ofFn (fun i => UInt8.ofNat (f i).val)
  let tagFn : (Fin 32 → Fin 256) → (Fin 16 → Fin 256) := fun f i =>
    ⟨((G.Seal (keyOf f) nonce []).getD i.val 0).toNat, UInt8.toNat_lt _⟩
  have hcard : Fintype.card (Fin 16 → Fin 256) < Fintype.card (Fin 32 → Fin 256) := by
    simp only [Fintype.card_fun, Fintype.card_fin]
    norm_num
  obtain ⟨f, g, hfg, heq⟩ := Fintype.exists_ne_map_eq_of_card_lt tagFn hcard
  have hlen : ∀ f, (G.Seal (keyOf f) nonce []).length = 16 := by
    intro f
    rw [htag]; rfl
  have hseal : G.Seal (keyOf f) nonce [] = G.Seal (keyOf g) nonce [] := by
    apply eq_of_getD_eq _ _ (hlen f) (hlen g)
    intro i
    have := congrFun heq i
    exact congrArg Fin.val this
  have hkg : NewCipher (keyOf g) = .ok () := by
    simp [NewCipher, keyOf]
  refine ⟨keyOf f, keyOf g, keyOf_length f, keyOf_length g, ?_, ?_⟩
  · intro h
    exact hfg (keyOf_injective f g h)
  · rw [hseal]
    exact hinv _ _ [] hkg hn

/-- Different adjusted keys do not force a failure: for every outcome of the entropy
source there are two 32-byte passwords with different adjusted keys such that the
second decrypts the blob the first encrypted from the empty plaintext. -/
theorem different_keys_can_decrypt (G : AESGCM) (hinv : G.OpenInvertsSeal)
    (htag : G.SealAddsTag) (entropy : List Byte) :
    ∃ p1 p2 : List Byte, keyAdjust p1 ≠ keyAdjust p2 ∧
      (encrypt G entropy (keyAdjust p1) [] >>= decrypt G (keyAdjust p2)) = .ok [] := by
  obtain ⟨key, other, hk, ho, hne, hopen⟩ :=
    other_key_accepted_somewhere G hinv htag (readNonce entropy) (readNonce_length entropy)
  have hfix : ∀ p : List Byte, p.length = 32 → keyAdjust p = p := by
    intro p hp
    simp [keyAdjust, hp]
  have hck : NewCipher key = .ok () := by simp [NewCipher, hk]
  have hco : NewCipher other = .ok () := by simp [NewCipher, ho]
  refine ⟨key, other, by rw [hfix key hk, hfix other ho]; exact hne, ?_⟩
  rw [hfix key hk, hfix other ho, encrypt_ok G entropy key [] hck]
  show decrypt G other _ = _
  rw [decrypt_blob G _ _ _ hco (readNonce_length entropy), hopen]
  rfl


/-! ## C6: the length of the adjusted key -/

/-- C6 (as the code has it): for every password of at most 32 bytes the adjusted key
has 16 bytes when the password is shorter than 16, 24 bytes when it has 16 to 23, and
32 bytes when it has 24 to 32; unless the password has exactly 16 or 24 bytes this is
the smallest of 16, 24 and 32 that is at least the password length. -/
theorem C6_adjusted_key_length (password : List Byte) (hlen : password.length ≤ 32) :
    (keyAdjust password).length =
        (if password.length < 16 then 16 else if password.length < 24 then 24 else 32) ∧
    (password.length ≠ 16 → password.length ≠ 24 →
      smallestSupportedAtLeast password.length = some (keyAdjust password).length) := by
  have hl := keyAdjust_length password
  constructor
  · rw [hl]
    by_cases h1 : password.length < 16
    · simp [h1]
    · by_cases h2 : password.length < 24
      · simp [h1, h2]
      · by_cases h3 : password.length < 32
        · simp [h1, h2, h3]
        · simp [h1, h2, h3]; omega
  · intro h16 h24
    rw [hl]
    generalize password.length = n at hlen h16 h24
    interval_cases n <;> first | omega | decide

theorem C6_witness :
    (keyAdjust passwordAbc).length =
        (if passwordAbc.length < 16 then 16 else if passwordAbc.length < 24 then 24 else 32) ∧
    (passwordAbc.length ≠ 16 → passwordAbc.length ≠ 24 →
      smallestSupportedAtLeast passwordAbc.length = some (keyAdjust passwordAbc).length) :=
  C6_adjusted_key_length passwordAbc (by decide)

/-- C6 fails for a 16-byte password: the smallest of 16, 24 and 32 that is at least 16
is 16, and `keyAdjust` returns 24 bytes. -/
theorem C6_counterexample :
    password16.length = 16 ∧ smallestSupportedAtLeast password16.length = some 16 ∧
    (keyAdjust password16).length = 24 := by
  decide

/-! ## C7, C8: what `ValidateAddress` returns -/

/-- C7 (as the code has it): `ValidateAddress` returns a boolean exactly for the
address texts whose base-58 decoding has at least 5 bytes; on a shorter or empty
decoding it panics on a slice bound. -/
theorem C7_returns_iff_five_bytes (S : Sum256Fn) (B : Base58) (address : List Byte) :
    ((∃ b, ValidateAddress S B address = .ok b) ↔ 5 ≤ (B.Base58Decode address).length) ∧
    ((B.Base58Decode address).length < 5 →
      ValidateAddress S B address = .error .sliceBounds) := by
  unfold ValidateAddress
  refine ⟨⟨?_, ?_⟩, validatePayload_short S _⟩
  · rintro ⟨b, hb⟩
    by_contra hc
    rw [validatePayload_short S _ (by omega)] at hb
    cases hb
  · intro h
    exact ⟨_, validatePayload_long S _ h⟩

/-- C7 fails on the empty decoding and on a four-byte decoding: the body of
`ValidateAddress` panics on both, and no hash and no decoder make `ValidateAddress`
return a boolean on a text that decodes to fewer than 5 bytes. -/
theorem C7_counterexample :
    validatePayload sha256.Sum256 [] = .error .sliceBounds ∧
    validatePayload sha256.Sum256 [0x00, 0x01, 0x02, 0x03] = .error .sliceBounds ∧
    ¬ ∃ (S : Sum256Fn) (B : Base58) (address : List Byte),
        (B.Base58Decode address).length < 5 ∧ ∃ b, ValidateAddress S B address = .ok b := by
  refine ⟨rfl, rfl, ?_⟩
  rintro ⟨S, B, address, hshort, b, hb⟩
  unfold ValidateAddress at hb
  rw [validatePayload_short S _ hshort] at hb
  cases hb

/-- C8: for every address text whose base-58 decoding `d` has at least 5 bytes,
`ValidateAddress` returns, and returns true exactly when the last 4 bytes of `d` are
the first 4 bytes of SHA-256 of SHA-256 of the bytes of `d` before them. -/
theorem C8_validate_compares_checksum (S : Sum256Fn) (B : Base58) (address : List Byte)
    (h : 5 ≤ (B.Base58Decode address).length) :
    ValidateAddress S B address
      = .ok (decide ((B.Base58Decode address).drop ((B.Base58Decode address).length - 4)
          = (S (S ((B.Base58Decode address).take
              ((B.Base58Decode address).length - 4))).val).val.take 4)) := by
  unfold ValidateAddress
  rw [validatePayload_long S _ h]
  rfl

theorem C8_witness :
    ValidateAddress sha256.Sum256 plainCodec validPayload
      = .ok (decide ((plainCodec.Base58Decode validPayload).drop
            ((plainCodec.Base58Decode validPayload).length - 4)
          = (sha256.Sum256 (sha256.Sum256 ((plainCodec.Base58Decode validPayload).take
              ((plainCodec.Base58Decode validPayload).length - 4))).val).val.take 4)) :=
  C8_validate_compares_checksum sha256.Sum256 plainCodec validPayload (by decide)

/-! ## C9: what `VerifySignature` hands to ECDSA verification -/

/-- The digits `%x` prints are the lower-case hexadecimal digits. -/
theorem hexDigit_table (k : Nat) (h : k < 16) :
    hexDigit k = hexDigits.getD k 0 := by
  interval_cases k <;> rfl

theorem hexBytes_length (bs : List Byte) : (hexBytes bs).length = 2 * bs.length := by
  induction bs with
  | nil => rfl
  | cons b t ih => simp [hexBytes, ih]; omega

/-- Byte `i` of the message gives the digits at positions `2 * i` and `2 * i + 1`. -/
theorem hexBytes_get (bs : List Byte) (i : Nat) (h : i < bs.length) :
    (hexBytes bs).get? (2 * i) = some (hexDigit ((bs.get ⟨i, h⟩).toNat / 16)) ∧
    (hexBytes bs).get? (2 * i + 1) = some (hexDigit ((bs.get ⟨i, h⟩).toNat % 16)) := by
  induction bs generalizing i with
  | nil => simp at h
  | cons b t ih =>
    cases i with
    | zero => simp [hexBytes]
    | succ j =>
      have hj : j < t.length := by simpa using h
      have := ih j hj
      have e1 : 2 * (j + 1) = (2 * j) + 1 + 1 := by omega
      rw [e1]
      simpa [hexBytes] using this

/-- The tail of `VerifySignature`: `if v == false { return false }; return true`. -/
theorem return_of_comparison (v : Bool) : (if v == false then false else true) = v := by
  cases v <;> rfl

/-- C9 (as the code has it): for every message, public key and signature,
`VerifySignature` returns the result of ECDSA verification of `(R, S)` under the point
`(X, Y)` with, as the digest argument, the bytes of the textual representation
themselves (two lower-case hexadecimal digits for each message byte, then a newline);
`R`, `S` are the big-endian integers of the halves of the signature split at `len/2`,
and `X`, `Y` those of the halves of the public key. -/
theorem C9_verify_passes_text_as_digest (Verify : VerifyFn)
    (transaction pubkey sig : List Byte) :
    VerifySignature Verify transaction pubkey sig =
      Verify (SetBytes (pubkey.take (pubkey.length / 2)))
        (SetBytes (pubkey.drop (pubkey.length / 2)))
        (hexBytes transaction ++ [0x0a])
        (SetBytes (sig.take (sig.length / 2)))
        (SetBytes (sig.drop (sig.length / 2))) ∧
    (hexBytes transaction).length = 2 * transaction.length ∧
    ∀ (i : Nat) (h : i < transaction.length),
      (hexBytes transaction).get? (2 * i)
        = some (hexDigits.getD ((transaction.get ⟨i, h⟩).toNat / 16) 0) ∧
      (hexBytes transaction).get? (2 * i + 1)
        = some (hexDigits.getD ((transaction.get ⟨i, h⟩).toNat % 16) 0) := by
  refine ⟨return_of_comparison _, hexBytes_length transaction, ?_⟩
  intro i h
  have hb := UInt8.toNat_lt (transaction.get ⟨i, h⟩)
  have hg := hexBytes_get transaction i h
  rw [← hexDigit_table _ (by omega), ← hexDigit_table _ (by omega)]
  exact hg

/-- C9 fails for the message `hello`, the public key of private scalar 7 and a
signature made over the text `68656c6c6f` and a newline itself: `VerifySignature`
accepts it, and ECDSA verification on P-256 of the same `(R, S)` under the same
`(X, Y)` against the SHA-256 hash of that text rejects it. -/
theorem C9_counterexample :
    VerifySignature P256.Verify helloMessage publicKey7 helloSignature = true ∧
    P256.Verify (splitHalves publicKey7).1 (splitHalves publicKey7).2
      (sha256.Sum256 (dataToVerify helloMessage)).val
      (splitHalves helloSignature).1 (splitHalves helloSignature).2 = false := by
  decide!

/-! ## C10: a changed byte before the checksum -/

theorem take_set_of_lt (d : List Byte) (i k : Nat) (b : Byte) (h : i < k) :
    (d.set i b).take k = (d.take k).set i b := by
  induction d generalizing i k with
  | nil => simp
  | cons a t ih =>
    cases k with
    | zero => omega
    | succ k =>
      cases i with
      | zero => simp
      | succ i => simp [ih i k (by omega)]

theorem drop_set_of_le (d : List Byte) (i k : Nat) (b : Byte) (h : i < k) :
    (d.set i b).drop k = d.drop k := by
  induction d generalizing i k with
  | nil => simp
  | cons a t ih =>
    cases k with
    | zero => omega
    | succ k =>
      cases i with
      | zero => simp
      | succ i => simp [ih i k (by omega)]

/-- C10 (as the code has it): for every address whose decoded payload passes
`ValidateAddress` and every position before the checksum, `ValidateAddress` on a text
that decodes to the payload with that byte replaced returns true exactly when the
`CheckSum` of the changed leading part equals the `CheckSum` of the original one, and
false otherwise. -/
theorem C10_changed_byte_needs_collision (S : Sum256Fn) (B : Base58)
    (address altered : List Byte) (i : Nat) (b : Byte)
    (hvalid : ValidateAddress S B address = .ok true)
    (hi : i + 4 < (B.Base58Decode address).length)
    (halt : B.Base58Decode altered = (B.Base58Decode address).set i b) :
    ValidateAddress S B altered =
      .ok (decide (CheckSum S (((B.Base58Decode address).take
              ((B.Base58Decode address).length - 4)).set i b)
          = CheckSum S ((B.Base58Decode address).take
              ((B.Base58Decode address).length - 4)))) := by
  unfold ValidateAddress at hvalid ⊢
  generalize B.Base58Decode address = d at hvalid hi halt
  rw [halt]
  have h5 : 5 ≤ d.length := by omega
  rw [validatePayload_long S d h5] at hvalid
  have hcs : d.drop (d.length - 4) = CheckSum S (d.take (d.length - 4)) := by
    injection hvalid with hv
    exact of_decide_eq_true hv
  rw [validatePayload_long S _ (by simpa using h5)]
  simp only [List.length_set]
  rw [take_set_of_lt d i _ b (by omega), drop_set_of_le d i _ b (by omega), hcs]
  congr 1
  simp only [decide_eq_decide]
  exact eq_comm

theorem C10_witness :
    ValidateAddress sha256.Sum256 plainCodec (validPayload.set 3 0xe7) =
      .ok (decide (CheckSum sha256.Sum256 (((plainCodec.Base58Decode validPayload).take
              ((plainCodec.Base58Decode validPayload).length - 4)).set 3 0xe7)
          = CheckSum sha256.Sum256 ((plainCodec.Base58Decode validPayload).take
              ((plainCodec.Base58Decode validPayload).length - 4)))) :=
  C10_changed_byte_needs_collision sha256.Sum256 plainCodec validPayload
    (validPayload.set 3 0xe7) 3 0xe7 (by decide!) (by decide) rfl

/-- C10 fails for the payload `validPayload`: it passes validation, its byte at
position 3 (a hash byte, before the checksum) is `0x72`, and with that byte replaced by
`0xe6` it still passes, for every decoder and every pair of texts decoding to the two
payloads. -/
theorem C10_counterexample :
    validatePayload sha256.Sum256 validPayload = .ok true ∧
    3 + 4 < validPayload.length ∧ validPayload.get? 3 = some 0x72 ∧
    validatePayload sha256.Sum256 (validPayload.set 3 0xe6) = .ok true ∧
    ∀ (B : Base58) (address altered : List Byte),
      B.Base58Decode address = validPayload →
      B.Base58Decode altered = validPayload.set 3 0xe6 →
      ValidateAddress sha256.Sum256 B address = .ok true ∧
      ValidateAddress sha256.Sum256 B altered = .ok true := by
  have h1 : validatePayload sha256.Sum256 validPayload = .ok true := by decide!
  have h2 : validatePayload sha256.Sum256 (validPayload.set 3 0xe6) = .ok true := by decide!
  refine ⟨h1, by decide, by decide, h2, ?_⟩
  intro B address altered ha hb
  unfold ValidateAddress
  rw [ha, hb]
  exact ⟨h1, h2⟩

/-! ## C11, C12, C13, C18: the adjusted key -/

/-- C11: `keyAdjust` of the password `abc` is the bytes `a`, `b`, `c` followed by 13
zero bytes, 16 bytes in all, and for every password of exactly 20 bytes `keyAdjust`
returns exactly 24 bytes. -/
theorem C11_abc_and_twenty_bytes (password : List Byte) (h20 : password.length = 20) :
    keyAdjust [0x61, 0x62, 0x63] = [0x61, 0x62, 0x63] ++ List.replicate 13 0x00 ∧
    (keyAdjust [0x61, 0x62, 0x63]).length = 16 ∧
    (keyAdjust password).length = 24 := by
  refine ⟨by decide, by decide, ?_⟩
  rw [keyAdjust_length, h20]
  rfl

theorem C11_witness :
    keyAdjust [0x61, 0x62, 0x63] = [0x61, 0x62, 0x63] ++ List.replicate 13 0x00 ∧
    (keyAdjust [0x61, 0x62, 0x63]).length = 16 ∧
    (keyAdjust password20).length = 24 :=
  C11_abc_and_twenty_bytes password20 (by decide)

/-- C12: for every password, `keyAdjust` returns a byte string that begins with the
bytes of the password, unchanged, and in which every byte after them is zero. -/
theorem C12_password_then_zeros (password : List Byte) :
    (keyAdjust password).take password.length = password ∧
    password.length ≤ (keyAdjust password).length ∧
    ∀ (i : Nat), password.length ≤ i → i < (keyAdjust password).length →
      (keyAdjust password).get? i = some 0x00 := by
  have h := keyAdjust_eq password
  generalize (if password.length < 16 then 16 - password.length
       else if password.length < 24 then 24 - password.length
       else if password.length < 32 then 32 - password.length else 0) = k at h
  rw [h]
  refine ⟨by simp, by simp, ?_⟩
  intro i hi hlt
  have hk : i - password.length < k := by
    simp only [List.length_append, List.length_replicate] at hlt
    omega
  rw [List.get?_eq_getElem?, List.getElem?_append_right hi, List.getElem?_replicate]
  simp [hk]

/-- C13: for every password longer than 32 bytes, `keyAdjust` returns the bytes of the
password, nothing appended and nothing removed. -/
theorem C13_long_password_unchanged (password : List Byte) (h : 32 < password.length) :
    keyAdjust password = password := by
  have h1 : ¬ password.length < 16 := by omega
  have h2 : ¬ password.length < 24 := by omega
  have h3 : ¬ password.length < 32 := by omega
  simp [keyAdjust, h1, h2, h3]

theorem C13_witness : keyAdjust password33 = password33 :=
  C13_long_password_unchanged password33 (by decide)

/-- C18: for every password of at most 32 bytes the adjusted key has 16, 24 or 32
bytes, so `aes.NewCipher` accepts it: `encrypt` returns a blob, and `decrypt` goes on
to slice the blob and call `Open`, whatever the cipher, entropy and data. -/
theorem C18_adjusted_key_accepted (password : List Byte) (hlen : password.length ≤ 32) :
    ((keyAdjust password).length = 16 ∨ (keyAdjust password).length = 24 ∨
      (keyAdjust password).length = 32) ∧
    Handle (NewCipher (keyAdjust password)) = .ok () ∧
    (∀ (G : AESGCM) (entropy data : List Byte),
      encrypt G entropy (keyAdjust password) data
        = .ok (readNonce entropy ++ G.Seal (keyAdjust password) (readNonce entropy) data)) ∧
    (∀ (G : AESGCM) (data : List Byte),
      decrypt G (keyAdjust password) data
        = (slice data 0 NonceSize >>= fun nonce =>
            slice data NonceSize data.length >>= fun ciphertext =>
              Handle (G.Open (keyAdjust password) nonce ciphertext))) := by
  have hk := NewCipher_keyAdjust password hlen
  have hl : (keyAdjust password).length = 16 ∨ (keyAdjust password).length = 24 ∨
      (keyAdjust password).length = 32 := by
    unfold NewCipher at hk
    by_contra hc
    simp [hc] at hk
  refine ⟨hl, by rw [hk]; rfl, ?_, ?_⟩
  · intro G entropy data
    exact encrypt_ok G entropy _ data hk
  · intro G data
    simp only [decrypt, hk, Handle]
    cases slice data 0 NonceSize with
    | error e => rfl
    | ok nonce =>
      cases slice data NonceSize data.length with
      | error e => rfl
      | ok ct =>
        cases h : G.Open (keyAdjust password) nonce ct <;>
          simp only [bind, Except.bind, pure, Except.pure, h]

theorem C18_witness :
    ((keyAdjust passwordAbc).length = 16 ∨ (keyAdjust passwordAbc).length = 24 ∨
      (keyAdjust passwordAbc).length = 32) ∧
    Handle (NewCipher (keyAdjust passwordAbc)) = .ok () ∧
    (∀ (G : AESGCM) (entropy data : List Byte),
      encrypt G entropy (keyAdjust passwordAbc) data
        = .ok (readNonce entropy ++
            G.Seal (keyAdjust passwordAbc) (readNonce entropy) data)) ∧
    (∀ (G : AESGCM) (data : List Byte),
      decrypt G (keyAdjust passwordAbc) data
        = (slice data 0 NonceSize >>= fun nonce =>
            slice data NonceSize data.length >>= fun ciphertext =>
              Handle (G.Open (keyAdjust passwordAbc) nonce ciphertext))) :=
  C18_adjusted_key_accepted passwordAbc (by decide)

/-! ## C14, C15: the payload of an address -/

/-- C14: for every address text whose base-58 decoding `d` has at least 5 bytes,
`AddressToPKH` returns `d` without its last 4 bytes and without its first byte, with
no condition on the checksum; a text whose decoding differs from `d` only in the last 4
bytes gives the same result. -/
theorem C14_pkh_is_the_middle (B : Base58) (address other : List Byte)
    (h : 5 ≤ (B.Base58Decode address).length)
    (hlen : (B.Base58Decode other).length = (B.Base58Decode address).length)
    (hsame : (B.Base58Decode other).take ((B.Base58Decode address).length - 4)
      = (B.Base58Decode address).take ((B.Base58Decode address).length - 4)) :
    AddressToPKH B address
      = .ok (((B.Base58Decode address).take ((B.Base58Decode address).length - 4)).drop 1) ∧
    AddressToPKH B other = AddressToPKH B address := by
  unfold AddressToPKH
  generalize B.Base58Decode address = d at h hlen hsame
  generalize B.Base58Decode other = d2 at hlen hsame
  obtain ⟨v, mid, cs, hd, hcs, _, h2⟩ := payload_split d h
  obtain ⟨v2, mid2, cs2, hd2, hcs2, _, h22⟩ := payload_split d2 (by omega)
  have hmid : payloadToPKH d = .ok mid := by
    rw [hd]; exact payloadToPKH_built v mid cs hcs
  have hmid2 : payloadToPKH d2 = .ok mid2 := by
    rw [hd2]; exact payloadToPKH_built v2 mid2 cs2 hcs2
  have heq : v2 :: mid2 = v :: mid := by
    rw [h22, h2, hlen, hsame]
  have hm : mid2 = mid := (List.cons.inj heq).2
  refine ⟨?_, ?_⟩
  · rw [hmid, ← h2]; rfl
  · rw [hmid, hmid2, hm]

theorem C14_witness :
    AddressToPKH plainCodec validPayload
      = .ok (((plainCodec.Base58Decode validPayload).take
          ((plainCodec.Base58Decode validPayload).length - 4)).drop 1) ∧
    AddressToPKH plainCodec otherChecksumPayload = AddressToPKH plainCodec validPayload :=
  C14_pkh_is_the_middle plainCodec validPayload otherChecksumPayload
    (by decide) (by decide) (by decide)

/-- C15: for every wallet, `Address` hands to the base-58 encoder the version byte
`0x00`, then the public-key hash, then the 4-byte `CheckSum` of the version byte
followed by the hash; the hash has 20 bytes and the payload 25. -/
theorem C15_address_payload_layout (S : Sum256Fn) (R : Ripemd160Fn) (B : Base58)
    (w : Wallet) :
    Address S R B w
      = B.Base58Encode ([0x00] ++ PublicKeyHash S R w
          ++ CheckSum S ([0x00] ++ PublicKeyHash S R w)) ∧
    (PublicKeyHash S R w).length = 20 ∧
    (CheckSum S ([0x00] ++ PublicKeyHash S R w)).length = 4 ∧
    ([0x00] ++ PublicKeyHash S R w
      ++ CheckSum S ([0x00] ++ PublicKeyHash S R w)).length = 25 := by
  have hp : (PublicKeyHash S R w).length = 20 := by
    simp [PublicKeyHash, (R _).property]
  have hc := CheckSum_length S ([0x00] ++ PublicKeyHash S R w)
  refine ⟨rfl, hp, hc, ?_⟩
  rw [List.length_append, List.length_append, hp, hc]
  rfl

/-! ## C16: the layout of the blob -/

/-- The nonce is the first `NonceSize` bytes the reader supplies. -/
theorem readNonce_append (nonce rest : List Byte) (h : nonce.length = NonceSize) :
    readNonce (nonce ++ rest) = nonce := by
  unfold readNonce
  rw [List.append_assoc, ← h, List.take_left]

/-- After a short read the nonce is what was read followed by zero bytes. -/
theorem readNonce_short (entropy : List Byte) (h : entropy.length ≤ NonceSize) :
    readNonce entropy = entropy ++ List.replicate (NonceSize - entropy.length) 0x00 := by
  unfold readNonce
  rw [List.take_append_eq_append_take, List.take_of_length_le h, List.take_replicate]
  congr 2
  omega

/-- C16: for every key `aes.NewCipher` accepts, every plaintext and every nonce of
`NonceSize` bytes that the entropy source supplies (whatever follows it in the source),
`encrypt` returns that nonce followed by what `Seal` returns for the key, that nonce
and the plaintext: the first `NonceSize` bytes of the blob are the nonce drawn, the
rest is the sealed text, and, `Seal` adding a tag of `TagSize` bytes, the blob has
`NonceSize` + plaintext length + `TagSize` bytes. -/
theorem C16_blob_is_nonce_then_sealed (G : AESGCM) (hG : G.SealAddsTag)
    (nonce rest key data : List Byte) (hk : NewCipher key = .ok ())
    (hn : nonce.length = NonceSize) :
    encrypt G (nonce ++ rest) key data = .ok (nonce ++ G.Seal key nonce data) ∧
    (nonce ++ G.Seal key nonce data).take NonceSize = nonce ∧
    (nonce ++ G.Seal key nonce data).drop NonceSize = G.Seal key nonce data ∧
    (nonce ++ G.Seal key nonce data).length = NonceSize + data.length + TagSize := by
  refine ⟨?_, ?_, ?_, ?_⟩
  · rw [encrypt_ok G _ key data hk, readNonce_append nonce rest hn]
  · rw [← hn, List.take_left]
  · rw [← hn, List.drop_left]
  · rw [List.length_append, hn, hG]
    omega

theorem C16_witness :
    encrypt tagCipher (drawnNonce ++ [0xaa, 0xbb]) (keyAdjust passwordAbc) [9, 9]
      = .ok (drawnNonce ++ tagCipher.Seal (keyAdjust passwordAbc) drawnNonce [9, 9]) ∧
    (drawnNonce ++ tagCipher.Seal (keyAdjust passwordAbc) drawnNonce [9, 9]).take NonceSize
      = drawnNonce ∧
    (drawnNonce ++ tagCipher.Seal (keyAdjust passwordAbc) drawnNonce [9, 9]).drop NonceSize
      = tagCipher.Seal (keyAdjust passwordAbc) drawnNonce [9, 9] ∧
    (drawnNonce ++ tagCipher.Seal (keyAdjust passwordAbc) drawnNonce [9, 9]).length
      = NonceSize + ([9, 9] : List Byte).length + TagSize :=
  C16_blob_is_nonce_then_sealed tagCipher tagCipher_adds_tag drawnNonce [0xaa, 0xbb]
    (keyAdjust passwordAbc) [9, 9] (by decide) (by decide)

/-! ## C17: a changed checksum byte -/

theorem take_set_of_ge (d : List Byte) (i k : Nat) (b : Byte) (h : k ≤ i) :
    (d.set i b).take k = d.take k := by
  induction d generalizing i k with
  | nil => simp
  | cons a t ih =>
    cases k with
    | zero => simp
    | succ k =>
      cases i with
      | zero => omega
      | succ i => simp [ih i k (by omega)]

theorem drop_set_of_ge (d : List Byte) (i k : Nat) (b : Byte) (h : k ≤ i) :
    (d.set i b).drop k = (d.drop k).set (i - k) b := by
  induction d generalizing i k with
  | nil => simp
  | cons a t ih =>
    cases k with
    | zero => simp
    | succ k =>
      cases i with
      | zero => omega
      | succ i => simp [ih i k (by omega)]

/-- Writing a different byte at a position of a list changes the list. -/
theorem set_ne_self (l : List Byte) (j : Nat) (b : Byte) (h : l.get? j ≠ some b)
    (hj : j < l.length) : l.set j b ≠ l := by
  intro hc
  have h1 : (l.set j b).get? j = some b := by
    simp [List.getElem?_set, hj]
  rw [hc] at h1
  exact h h1

/-- C17: for every address whose decoded payload passes `ValidateAddress` (it then has
at least 5 bytes) and every position among its last 4 bytes, `ValidateAddress` on a
text that decodes to the payload with the byte at that position replaced by a different
value returns false. -/
theorem C17_changed_checksum_byte_rejected (S : Sum256Fn) (B : Base58)
    (address altered : List Byte) (i : Nat) (b : Byte)
    (hvalid : ValidateAddress S B address = .ok true)
    (hlo : (B.Base58Decode address).length - 4 ≤ i)
    (hhi : i < (B.Base58Decode address).length)
    (hdiff : (B.Base58Decode address).get? i ≠ some b)
    (halt : B.Base58Decode altered = (B.Base58Decode address).set i b) :
    5 ≤ (B.Base58Decode address).length ∧ ValidateAddress S B altered = .ok false := by
  unfold ValidateAddress at hvalid ⊢
  generalize B.Base58Decode address = d at hvalid hlo hhi hdiff halt
  rw [halt]
  have h5 : 5 ≤ d.length := by
    by_contra hc
    rw [validatePayload_short S d (by omega)] at hvalid
    cases hvalid
  refine ⟨h5, ?_⟩
  rw [validatePayload_long S d h5] at hvalid
  have hcs : d.drop (d.length - 4) = CheckSum S (d.take (d.length - 4)) := by
    injection hvalid with hv
    exact of_decide_eq_true hv
  rw [validatePayload_long S _ (by simpa using h5)]
  simp only [List.length_set]
  rw [take_set_of_ge d i _ b hlo, drop_set_of_ge d i _ b hlo, ← hcs]
  congr 1
  apply decide_eq_false
  apply set_ne_self
  · rw [List.get?_eq_getElem?, List.getElem?_drop]
    rw [List.get?_eq_getElem?] at hdiff
    have : d.length - 4 + (i - (d.length - 4)) = i := by omega
    rw [this]
    exact hdiff
  · rw [List.length_drop]
    omega

theorem C17_witness :
    5 ≤ (plainCodec.Base58Decode validPayload).length ∧
    ValidateAddress sha256.Sum256 plainCodec otherChecksumPayload = .ok false :=
  C17_changed_checksum_byte_rejected sha256.Sum256 plainCodec validPayload
    otherChecksumPayload 24 0x34 (by decide!) (by decide) (by decide) (by decide) rfl

end Cryptocoin
